import Mathlib

/-!
Shallow embedding of the Apache infrastructure catalog service:
src/app/concepts/collections.py, src/app/renderers/lookup.py and
src/app/collectors/ldap.py.

Modelling conventions:
* Python objects become Lean structures; class inheritance becomes
  structure extension, and Python attribute lookup becomes an explicit
  `getattr` function that first tries the fields of the subclass and then
  defers to the parent structure, mirroring the method resolution order.
* References between live Python objects (person objects appended to a
  project list, project objects appended to a person list) are modelled
  by the id of the referenced object, because every such reference is
  obtained from an id-keyed store bucket and mutation of the referenced
  object goes through that bucket.
* Python dictionaries become association lists with first-match lookup
  and update-in-place insertion, which preserves insertion order exactly
  as CPython dictionaries do.
* Python exceptions (KeyError from `self._cache[oid]`, AttributeError
  from `getattr` and from `None.projects`) are modelled with `Except`.
-/

/-- Python str.lower, computed on the character list so that the kernel
can evaluate it on literals. -/
def pyLower (s : String) : String := ⟨s.data.map Char.toLower⟩

/-- Python str.capitalize: first character uppercased, the rest
lowercased. -/
def pyCapitalize (s : String) : String :=
  ⟨(s.data.take 1).map Char.toUpper ++ (s.data.drop 1).map Char.toLower⟩

/-- Lexicographic comparison of character lists, used to model the sort
by project short name. -/
def charListLt : List Char → List Char → Bool
  | [], [] => false
  | [], _ :: _ => true
  | _ :: _, [] => false
  | a :: as, b :: bs => if a < b then true else if b < a then false else charListLt as bs

/-- String comparison for the collector sort. -/
def strLt (a b : String) : Bool := charListLt a.data b.data

/-- Python runtime errors that the embedded code can raise. -/
inductive PyErr
  | keyError
  | attributeError
deriving DecidableEq, Repr

/-- Python attribute values, as far as the catalog records need them.
Object references and lists of object references are represented by the
ids of the referenced objects. -/
inductive PyVal
  | str (s : String)
  | int (n : Int)
  | pynone
  | strList (l : List String)
  | ref (id : String)
  | refList (ids : List String)
deriving DecidableEq, Repr

instance {ε α : Type} [DecidableEq ε] [DecidableEq α] : DecidableEq (Except ε α) := fun
  | .error a, .error b =>
    if h : a = b then .isTrue (h ▸ rfl) else .isFalse fun hc => h (Except.error.inj hc)
  | .error _, .ok _ => .isFalse fun hc => Except.noConfusion hc
  | .ok _, .error _ => .isFalse fun hc => Except.noConfusion hc
  | .ok a, .ok b =>
    if h : a = b then .isTrue (h ▸ rfl) else .isFalse fun hc => h (Except.ok.inj hc)

/-- Python `None` or a list of strings (for fields declared `list[str] = None`). -/
def optStrList : Option (List String) → PyVal
  | none => .pynone
  | some l => .strList l

/-- Python `None` or a string (for fields declared `str = None`). -/
def optStr : Option String → PyVal
  | none => .pynone
  | some s => .str s

/-- Python `None` or an object reference (for fields like `chair`). -/
def optRef : Option String → PyVal
  | none => .pynone
  | some i => .ref i

/-- BasePerson from collections.py: user id and public name only. -/
structure BasePerson where
  id : String
  name : String
deriving DecidableEq, Repr

/-- Person adds the primary email and the project back references
(modelled by project ids). -/
structure Person extends BasePerson where
  primary_email : String
  projects : List String := []
deriving DecidableEq, Repr

/-- ExtendedPerson adds the organization-internal fields. -/
structure ExtendedPerson extends Person where
  account_created_ts : Int := 0
  alternate_emails : Option (List String) := none
deriving DecidableEq, Repr

/-- BaseMailingList from collections.py. -/
structure BaseMailingList where
  id : String
deriving DecidableEq, Repr

/-- MailingList adds the project reference and the two derived fields,
with the same default factories as the source (address defaults to the
id, list_id is derived from the address). -/
structure MailingList extends BaseMailingList where
  project : String
  address : String := id
  list_id : String := "<" ++ String.mk (address.data.map fun c => if c = '@' then '.' else c) ++ ">"
deriving DecidableEq, Repr

/-- ExtendedMailingList adds the moderator and subscriber lists. -/
structure ExtendedMailingList extends MailingList where
  moderators : Option (List String) := none
  subscribers : Option (List String) := none
deriving DecidableEq, Repr

/-- GitRepository from collections.py. -/
structure GitRepository where
  id : String
  sourceURL : String
  mirrorURL : Option String := none
  project : String
deriving DecidableEq, Repr

/-- SubversionRepository from collections.py. -/
structure SubversionRepository where
  id : String
  sourceURL : String
  project : String
deriving DecidableEq, Repr

/-- BaseProject from collections.py. -/
structure BaseProject where
  id : String
  name : String
  website : String
deriving DecidableEq, Repr

/-- Project adds the relationship fields; every relationship is modelled
by the ids of the referenced objects. -/
structure Project extends BaseProject where
  mailinglists : List String := []
  chair : Option String := none
  committers : List String := []
  pmc_members : List String := []
  repositories : List String := []
deriving DecidableEq, Repr

/-- Attribute lookup on a BasePerson.  The raw ref_url field defaults to
None on every CatalogObject and is never assigned in the source, so its
raw value is always None; its serialized value is computed separately. -/
def BasePerson.getattr (p : BasePerson) (f : String) : Option PyVal :=
  if f = "id" then some (.str p.id)
  else if f = "name" then some (.str p.name)
  else if f = "ref_url" then some .pynone
  else none

/-- Attribute lookup on a Person, deferring to BasePerson. -/
def Person.getattr (p : Person) (f : String) : Option PyVal :=
  if f = "primary_email" then some (.str p.primary_email)
  else if f = "projects" then some (.refList p.projects)
  else p.toBasePerson.getattr f

/-- Attribute lookup on an ExtendedPerson, deferring to Person. -/
def ExtendedPerson.getattr (p : ExtendedPerson) (f : String) : Option PyVal :=
  if f = "account_created_ts" then some (.int p.account_created_ts)
  else if f = "alternate_emails" then some (optStrList p.alternate_emails)
  else p.toPerson.getattr f

/-- Attribute lookup on a BaseMailingList. -/
def BaseMailingList.getattr (m : BaseMailingList) (f : String) : Option PyVal :=
  if f = "id" then some (.str m.id)
  else if f = "ref_url" then some .pynone
  else none

/-- Attribute lookup on a MailingList, deferring to BaseMailingList. -/
def MailingList.getattr (m : MailingList) (f : String) : Option PyVal :=
  if f = "project" then some (.ref m.project)
  else if f = "address" then some (.str m.address)
  else if f = "list_id" then some (.str m.list_id)
  else m.toBaseMailingList.getattr f

/-- Attribute lookup on an ExtendedMailingList, deferring to MailingList. -/
def ExtendedMailingList.getattr (m : ExtendedMailingList) (f : String) : Option PyVal :=
  if f = "moderators" then some (optStrList m.moderators)
  else if f = "subscribers" then some (optStrList m.subscribers)
  else m.toMailingList.getattr f

/-- Attribute lookup on a GitRepository. -/
def GitRepository.getattr (r : GitRepository) (f : String) : Option PyVal :=
  if f = "id" then some (.str r.id)
  else if f = "sourceURL" then some (.str r.sourceURL)
  else if f = "mirrorURL" then some (optStr r.mirrorURL)
  else if f = "project" then some (.str r.project)
  else if f = "ref_url" then some .pynone
  else none

/-- Attribute lookup on a SubversionRepository. -/
def SubversionRepository.getattr (r : SubversionRepository) (f : String) : Option PyVal :=
  if f = "id" then some (.str r.id)
  else if f = "sourceURL" then some (.str r.sourceURL)
  else if f = "project" then some (.str r.project)
  else if f = "ref_url" then some .pynone
  else none

/-- Attribute lookup on a BaseProject. -/
def BaseProject.getattr (p : BaseProject) (f : String) : Option PyVal :=
  if f = "id" then some (.str p.id)
  else if f = "name" then some (.str p.name)
  else if f = "website" then some (.str p.website)
  else if f = "ref_url" then some .pynone
  else none

/-- Attribute lookup on a Project, deferring to BaseProject. -/
def Project.getattr (p : Project) (f : String) : Option PyVal :=
  if f = "mailinglists" then some (.refList p.mailinglists)
  else if f = "chair" then some (optRef p.chair)
  else if f = "committers" then some (.refList p.committers)
  else if f = "pmc_members" then some (.refList p.pmc_members)
  else if f = "repositories" then some (.refList p.repositories)
  else p.toBaseProject.getattr f

/-- The sum of every catalog object class (ANY_CLASS in collections.py). -/
inductive Entity
  | basePerson (p : BasePerson)
  | person (p : Person)
  | extendedPerson (p : ExtendedPerson)
  | baseMailingList (m : BaseMailingList)
  | mailingList (m : MailingList)
  | extendedMailingList (m : ExtendedMailingList)
  | gitRepository (r : GitRepository)
  | subversionRepository (r : SubversionRepository)
  | baseProject (p : BaseProject)
  | project (p : Project)
deriving DecidableEq, Repr

/-- Python class name of an entity (`self.__class__.__name__`). -/
def Entity.className : Entity → String
  | .basePerson _ => "BasePerson"
  | .person _ => "Person"
  | .extendedPerson _ => "ExtendedPerson"
  | .baseMailingList _ => "BaseMailingList"
  | .mailingList _ => "MailingList"
  | .extendedMailingList _ => "ExtendedMailingList"
  | .gitRepository _ => "GitRepository"
  | .subversionRepository _ => "SubversionRepository"
  | .baseProject _ => "BaseProject"
  | .project _ => "Project"

/-- The id attribute of an entity (every catalog object has one). -/
def Entity.idOf : Entity → String
  | .basePerson p => p.id
  | .person p => p.id
  | .extendedPerson p => p.id
  | .baseMailingList m => m.id
  | .mailingList m => m.id
  | .extendedMailingList m => m.id
  | .gitRepository r => r.id
  | .subversionRepository r => r.id
  | .baseProject p => p.id
  | .project p => p.id

/-- Raw Python attribute access on an entity, returning none when the
attribute does not exist (the call site decides whether that raises). -/
def Entity.getattr : Entity → String → Option PyVal
  | .basePerson p, f => p.getattr f
  | .person p, f => p.getattr f
  | .extendedPerson p, f => p.getattr f
  | .baseMailingList m, f => m.getattr f
  | .mailingList m, f => m.getattr f
  | .extendedMailingList m, f => m.getattr f
  | .gitRepository r, f => r.getattr f
  | .subversionRepository r, f => r.getattr f
  | .baseProject p, f => p.getattr f
  | .project p, f => p.getattr f

/-- Collection.shorthand from collections.py: lowercase the type name and
strip a leading "extended".  The class branch of the Python function goes
through `__name__`, so both branches are this one string function. -/
def Collection.shorthand (object_type : String) : String :=
  let s := pyLower object_type
  if List.isPrefixOf "extended".data s.data then ⟨s.data.drop "extended".data.length⟩ else s

/-- Serialized self-reference URL (CatalogObject.make_ref): the class
name is lowercased and its "extended" classifier stripped. -/
def refUrl (host slug oid : String) : String :=
  "https://" ++ host ++ "/lookup/" ++ slug ++ "/" ++ oid

/-- Serialized attribute view of an entity, as model_dump produces it:
identical to the raw attributes except that ref_url is computed by the
field serializer. -/
def Entity.dumpGet (host : String) (e : Entity) (f : String) : Option PyVal :=
  if f = "ref_url" then
    some (.str (refUrl host (Collection.shorthand e.className) e.idOf))
  else e.getattr f

/-- The downgrade performed by PublicResultSet: feeding an entity into a
result set declared over ANY_PUBLIC_CLASS serializes ExtendedPerson as
Person and ExtendedMailingList as MailingList, dropping the subclass-only
fields; every other class is already public and passes unchanged. -/
def Entity.downgradePublic : Entity → Entity
  | .extendedPerson p => .person p.toPerson
  | .extendedMailingList m => .mailingList m.toMailingList
  | e => e

/-- Insert into a Python dictionary modelled as an association list:
replace the value at the first occurrence of the key, keeping its
position, or append a fresh key at the end. -/
def dictInsert {α : Type} (k : String) (v : α) : List (String × α) → List (String × α)
  | [] => [(k, v)]
  | (k1, v1) :: rest => if k1 = k then (k, v) :: rest else (k1, v1) :: dictInsert k v rest

/-- Lookup in a Python dictionary modelled as an association list. -/
def dictGet {α : Type} : List (String × α) → String → Option α
  | [], _ => none
  | (k1, v1) :: rest, k => if k1 = k then some v1 else dictGet rest k

/-- One store bucket: a dictionary from entity id to entity. -/
abbrev Bucket := List (String × Entity)

/-- The dictionary comprehension in Collection.replace:
`{obj.id: obj for obj in obj_list}` (a later duplicate id overwrites). -/
def dictOf (objs : List Entity) : Bucket :=
  objs.foldl (fun d o => dictInsert o.idOf o d) []

/-- The collections cache: a dictionary from type slug to bucket. -/
structure Collection where
  cache : List (String × Bucket)
deriving DecidableEq, Repr

/-- A freshly initialized collections cache. -/
def Collection.empty : Collection := ⟨[]⟩

/-- Collection.replace: atomically install the new bucket for the slug. -/
def Collection.replace (c : Collection) (object_type : String) (obj_list : List Entity) :
    Collection :=
  ⟨dictInsert (Collection.shorthand object_type) (dictOf obj_list) c.cache⟩

/-- Collection.add: insert one object into the bucket determined by its
own class, creating the bucket when missing. -/
def Collection.add (c : Collection) (obj : Entity) : Collection :=
  let oid := Collection.shorthand obj.className
  let bucket := (dictGet c.cache oid).getD []
  ⟨dictInsert oid (dictInsert obj.idOf obj bucket) c.cache⟩

/-- Collection.list: values of the bucket found under the given name
verbatim.  The source does not pass the name through shorthand here, so
only the exact lowercase slug finds a bucket. -/
def Collection.list (c : Collection) (object_type : String) : List Entity :=
  ((dictGet c.cache object_type).getD []).map Prod.snd

/-- Sequential conjunction of the kwargs matches, as the generator inside
`all(...)` evaluates them: attribute access on an unknown name raises,
and a mismatch stops the iteration before later accesses. -/
def entryMatch (e : Entity) : List (String × PyVal) → Except PyErr Bool
  | [] => .ok true
  | (k, v) :: rest =>
    match e.getattr k with
    | none => .error .attributeError
    | some w => if w = v then entryMatch e rest else .ok false

/-- The scan loop of Collection.get: first entry matching all kwargs. -/
def scanFirst (kwargs : List (String × PyVal)) : Bucket → Except PyErr (Option Entity)
  | [] => .ok none
  | (_, e) :: rest =>
    match entryMatch e kwargs with
    | .error err => .error err
    | .ok true => .ok (some e)
    | .ok false => scanFirst kwargs rest

/-- Bucket lookup by an arbitrary Python value, as `bucket.get(uid)`
behaves: only a string key can match the string-keyed bucket. -/
def bucketGetV (b : Bucket) : PyVal → Option Entity
  | .str s => dictGet b s
  | _ => none

/-- Collection.get.  When the kwargs are exactly an id lookup the source
indexes `self._cache[oid]` directly, which raises KeyError when the
bucket is missing; the general path scans `self._cache.get(oid, {})`. -/
def Collection.get (c : Collection) (object_type : String) (kwargs : List (String × PyVal)) :
    Except PyErr (Option Entity) :=
  let oid := Collection.shorthand object_type
  match kwargs with
  | [("id", v)] =>
    match dictGet c.cache oid with
    | none => .error .keyError
    | some bucket => .ok (bucketGetV bucket v)
  | _ => scanFirst kwargs ((dictGet c.cache oid).getD [])

/-- The scan loop of Collection.get_all, collecting every match; an
attribute error surfaces when the generator reaches the bad entry. -/
def scanAll (kwargs : List (String × PyVal)) : Bucket → Except PyErr (List Entity)
  | [] => .ok []
  | (_, e) :: rest =>
    match entryMatch e kwargs with
    | .error err => .error err
    | .ok true => (scanAll kwargs rest).map (e :: ·)
    | .ok false => scanAll kwargs rest

/-- Collection.get_all. -/
def Collection.get_all (c : Collection) (object_type : String) (kwargs : List (String × PyVal)) :
    Except PyErr (List Entity) :=
  scanAll kwargs ((dictGet c.cache (Collection.shorthand object_type)).getD [])

/-- Result of the caller-facing lookup operation in renderers/lookup.py:
either the serialized envelope, the schema of the envelope (when the
query contains a "schema" key), or the 400 "No such object type" text. -/
inductive LookupResult
  | envelope (results : List Entity) (no_results : Nat)
  | schemaOf (anonymous : Bool)
  | noSuchType (datatype : String)
deriving DecidableEq, Repr

/-- Core of lookup_public, after the route has lowercased the type name
and popped the "anonymous" marker: list the bucket verbatim, error when
the tuple is empty (falsy), filter by comparing the included serialized
fields against the query strings, and serialize through PublicResultSet
(which downgrades every entity) when anonymous. -/
def lookupCore (host : String) (c : Collection) (datatype : String)
    (query : List (String × String)) (anonymous : Bool) : LookupResult :=
  let target := c.list datatype
  if target = [] then .noSuchType datatype
  else
    let matched := target.filter fun e =>
      query.all fun kv => decide (e.dumpGet host kv.1 = some (.str kv.2))
    if query.any fun kv => decide (kv.1 = "schema") then .schemaOf anonymous
    else if anonymous then .envelope (matched.map Entity.downgradePublic) matched.length
    else .envelope matched matched.length

/-- The lookup_public route itself: merge the uid path component into the
form data, read and pop the "anonymous" marker, lowercase the type name
and run the core. -/
def lookup_public (host : String) (c : Collection) (type_ : String) (uid : Option String)
    (formdata : List (String × String)) : LookupResult :=
  let query := match uid with
    | some u => dictInsert "id" u formdata
    | none => formdata
  let datatype := pyLower type_
  let anonymous : Bool := decide (¬ (dictGet query "anonymous").getD "??" = "??")
  let query := query.filter fun kv => decide (¬ kv.1 = "anonymous")
  lookupCore host c datatype query anonymous

/-- short_uid from collectors/ldap.py.  The regex takes, after an
optional "uid=" marker, the longest nonempty run of characters up to the
first comma; when the marker is present but immediately followed by a
comma the regex backtracks and captures from the start of the string,
and when nothing matches the input is returned unchanged. -/
def short_uid (uid : String) : String :=
  let tail := (uid.data.drop 4).takeWhile fun ch => !(ch = ',')
  if List.isPrefixOf "uid=".data uid.data ∧ ¬ tail = [] then ⟨tail⟩
  else
    let t := uid.data.takeWhile fun ch => !(ch = ',')
    if t = [] then uid else ⟨t⟩

/-- The person bucket the collector resolves against, as committed by
find_people: a dictionary from user id to ExtendedPerson. -/
abbrev PersonStore := List (String × ExtendedPerson)

/-- One LDAP search result for the project base, restricted to the
attributes find_projects reads; a missing attribute is the empty list. -/
structure LdapResult where
  cn : List String
  member : List String
  owner : List String
deriving DecidableEq, Repr

/-- The mutable state threaded through the two linking loops of one
project in find_projects. -/
structure BuildState where
  ps : PersonStore
  committers : List String
  pmc_members : List String
  first_person : Option String
deriving DecidableEq, Repr

/-- One iteration of the committer loop of find_projects.  When the
person lookup returns None the source still appends it to
project.committers and then evaluates `person.projects`, which raises
AttributeError; the raised error carries the whole pass away, so no
state after the raise is observable. -/
def processMember (pid : String) (st : BuildState) (uid : String) : Except PyErr BuildState :=
  let asfid := short_uid uid
  if asfid = "" then .ok st
  else
    match dictGet st.ps asfid with
    | none => .error .attributeError
    | some person =>
      let st := { st with committers := st.committers ++ [person.id] }
      if pid ∈ person.projects then .ok st
      else .ok { st with
        ps := dictInsert asfid { person with projects := person.projects ++ [pid] } st.ps }

/-- One iteration of the owner loop of find_projects: same as the
committer loop, but also records the first resolved owner. -/
def processOwner (pid : String) (st : BuildState) (uid : String) : Except PyErr BuildState :=
  let asfid := short_uid uid
  if asfid = "" then .ok st
  else
    match dictGet st.ps asfid with
    | none => .error .attributeError
    | some person =>
      let fp := match st.first_person with
        | none => some person.id
        | some x => some x
      let st := { st with pmc_members := st.pmc_members ++ [person.id], first_person := fp }
      if pid ∈ person.projects then .ok st
      else .ok { st with
        ps := dictInsert asfid { person with projects := person.projects ++ [pid] } st.ps }

/-- The committer loop over all member references of one project. -/
def processMembers (pid : String) (st : BuildState) : List String → Except PyErr BuildState
  | [] => .ok st
  | uid :: rest =>
    match processMember pid st uid with
    | .error e => .error e
    | .ok st1 => processMembers pid st1 rest

/-- The owner loop over all owner references of one project. -/
def processOwners (pid : String) (st : BuildState) : List String → Except PyErr BuildState
  | [] => .ok st
  | uid :: rest =>
    match processOwner pid st uid with
    | .error e => .error e
    | .ok st1 => processOwners pid st1 rest

/-- Building one project inside find_projects: run both loops, then
assemble the Project record (the source constructs it first and mutates
it; the end state is the same). -/
def buildProject (ps : PersonStore) (cn : String) (members owners : List String) :
    Except PyErr (Project × PersonStore) :=
  let st0 : BuildState := ⟨ps, [], [], none⟩
  match processMembers cn st0 members with
  | .error e => .error e
  | .ok st1 =>
    match processOwners cn st1 owners with
    | .error e => .error e
    | .ok st2 =>
      .ok ({ id := cn
             name := "Apache " ++ pyCapitalize cn
             website := "https://" ++ cn ++ ".apache.org"
             chair := st2.first_person
             committers := st2.committers
             pmc_members := st2.pmc_members }, st2.ps)

/-- Sort key for the project results: `x.get("cn", ["??"])[0]`. -/
def cnKey (r : LdapResult) : String := r.cn.headD "??"

/-- Stable insertion used to model `sorted(results, key=...)`. -/
def insertSorted (r : LdapResult) : List LdapResult → List LdapResult
  | [] => [r]
  | x :: xs => if strLt (cnKey r) (cnKey x) then r :: x :: xs else x :: insertSorted r xs

/-- Stable sort of the LDAP results by cn, as `sorted` produces it. -/
def sortResults (rs : List LdapResult) : List LdapResult :=
  rs.foldr insertSorted []

/-- The project loop of find_projects over the sorted results: results
without a cn are skipped; a raised AttributeError aborts the whole loop,
so the final `replace("project", projects)` never runs for it. -/
def find_projects_loop (ps : PersonStore) : List LdapResult → Except PyErr (List Project × PersonStore)
  | [] => .ok ([], ps)
  | r :: rest =>
    match r.cn with
    | [] => find_projects_loop ps rest
    | cn :: _ =>
      match buildProject ps cn r.member r.owner with
      | .error e => .error e
      | .ok (proj, ps1) =>
        match find_projects_loop ps1 rest with
        | .error e => .error e
        | .ok (projs, ps2) => .ok (proj :: projs, ps2)

/-- find_projects from collectors/ldap.py: sort, build every project,
and return the list committed by the final `replace("project", ...)`
together with the person bucket as the linking left it. -/
def find_projects (ps : PersonStore) (results : List LdapResult) :
    Except PyErr (List Project × PersonStore) :=
  find_projects_loop ps (sortResults results)

/-- One LDAP search result for the people base, restricted to the
attributes find_people reads; a missing attribute is the empty list. -/
structure LdapPersonResult where
  uid : List String
  cn : List String
  asf_committer_email : List String
deriving DecidableEq, Repr

/-- find_people from collectors/ldap.py: one ExtendedPerson per result
carrying a uid; indexing a missing cn or mail attribute raises.  The
account_created_ts is `int(time.time())`, passed in as `now`. -/
def find_people (now : Int) : List LdapPersonResult → Except PyErr (List ExtendedPerson)
  | [] => .ok []
  | r :: rest =>
    match r.uid with
    | [] => find_people now rest
    | u :: _ =>
      match r.cn, r.asf_committer_email with
      | c :: _, m :: _ =>
        (find_people now rest).map fun ps =>
          { id := u, name := c, primary_email := m, account_created_ts := now } :: ps
      | _, _ => .error .keyError

/-- The person bucket committed by `replace("person", people)`, seen as
the PersonStore the project pass resolves against. -/
def personBucketOf (people : List ExtendedPerson) : PersonStore :=
  people.foldl (fun d p => dictInsert p.id p d) []

/-- The store operations a refresh pass performs; used to state
reachability invariants of the cache. -/
inductive StoreOp
  | replace (t : String) (rs : List Entity)
  | add (e : Entity)
deriving DecidableEq, Repr

/-- One atomic store transition. -/
def Collection.applyOp (c : Collection) : StoreOp → Collection
  | .replace t rs => c.replace t rs
  | .add e => c.add e

/-- Run a sequence of store operations. -/
def Collection.applyOps (c : Collection) : List StoreOp → Collection
  | [] => c
  | op :: ops => (c.applyOp op).applyOps ops

/-- Every store state a trace passes through, including the initial and
the final one; each operation contributes exactly one new state. -/
def statesOf (c : Collection) : List StoreOp → List Collection
  | [] => [c]
  | op :: ops => c :: statesOf (c.applyOp op) ops

/-- The bucket stored under a slug, the empty dictionary when missing. -/
def Collection.bucket (c : Collection) (slug : String) : Bucket :=
  (dictGet c.cache slug).getD []

theorem dictGet_dictInsert_self {α : Type} (k : String) (v : α) (d : List (String × α)) :
    dictGet (dictInsert k v d) k = some v := by
  induction d with
  | nil => simp [dictInsert, dictGet]
  | cons kv rest ih =>
    obtain ⟨k1, v1⟩ := kv
    by_cases h : k1 = k
    · simp [dictInsert, h, dictGet]
    · simp [dictInsert, h, dictGet, ih]

theorem dictGet_dictInsert_ne {α : Type} {k x : String} (v : α) (d : List (String × α))
    (hx : ¬ x = k) : dictGet (dictInsert k v d) x = dictGet d x := by
  have hk : ¬ k = x := fun h => hx h.symm
  induction d with
  | nil => simp [dictInsert, dictGet, hk]
  | cons kv rest ih =>
    obtain ⟨k1, v1⟩ := kv
    by_cases h : k1 = k
    · subst h
      simp [dictInsert, dictGet, hk]
    · simp only [dictInsert, if_neg h, dictGet, ih]

theorem mem_dictInsert {α : Type} {k : String} {v : α} {d : List (String × α)} {kv : String × α}
    (h : kv ∈ dictInsert k v d) : kv = (k, v) ∨ kv ∈ d := by
  induction d with
  | nil => simpa [dictInsert] using h
  | cons kv1 rest ih =>
    obtain ⟨k1, v1⟩ := kv1
    by_cases h1 : k1 = k
    · simp only [dictInsert, if_pos h1, List.mem_cons] at h
      rcases h with h | h
      · exact Or.inl h
      · exact Or.inr (List.mem_cons_of_mem _ h)
    · simp only [dictInsert, if_neg h1, List.mem_cons] at h
      rcases h with h | h
      · exact Or.inr (by simp [h])
      · rcases ih h with h2 | h2
        · exact Or.inl h2
        · exact Or.inr (List.mem_cons_of_mem _ h2)

theorem dictGet_mem {α : Type} {d : List (String × α)} {k : String} {v : α}
    (h : dictGet d k = some v) : (k, v) ∈ d := by
  induction d with
  | nil => simp [dictGet] at h
  | cons kv rest ih =>
    obtain ⟨k1, v1⟩ := kv
    simp only [dictGet] at h
    by_cases h1 : k1 = k
    · subst h1
      rw [if_pos rfl] at h
      injection h with h2
      subst h2
      exact List.mem_cons_self _ _
    · rw [if_neg h1] at h
      exact List.mem_cons_of_mem _ (ih h)

/-- Sample person record used by the concrete theorems below. -/
def pJdoe : ExtendedPerson :=
  { id := "jdoe", name := "Jane Doe", primary_email := "jdoe@apache.org" }

/-- Store holding exactly the sample person in its person bucket. -/
def cJdoe : Collection :=
  Collection.replace Collection.empty "person" [.extendedPerson pJdoe]

/-- C8: Collection.get on an id-only query indexes the cache directly,
so when no bucket exists for the type it raises KeyError instead of
returning the not-found signal its own docstring promises; the scan path
of the very same function is total on the same store. -/
theorem get_missing_bucket_raises :
    Collection.get Collection.empty "person" [("id", .str "jdoe")] = .error .keyError
    ∧ Collection.get Collection.empty "person" [] = .ok none := by
  exact ⟨rfl, rfl⟩

/-- C9: a constraint naming a field that is not an attribute of the
records makes Collection.get and Collection.get_all raise AttributeError
(getattr with no default) instead of treating the record as a non-match. -/
theorem unknown_field_raises :
    Collection.get cJdoe "person" [("nosuchfield", .str "x")] = .error .attributeError
    ∧ Collection.get_all cJdoe "person" [("nosuchfield", .str "x")] = .error .attributeError := by
  exact ⟨by decide, by decide⟩

/-- C5: an unresolvable member reference is not skipped.  The source
appends the None lookup result to project.committers and then evaluates
the projects attribute of None, raising AttributeError; the raised error
aborts buildProject and with it the whole find_projects pass. -/
theorem unresolved_reference_aborts :
    buildProject [("jdoe", pJdoe)] "foo" ["ghost"] [] = .error .attributeError
    ∧ find_projects [("jdoe", pJdoe)] [⟨["foo"], ["ghost"], []⟩] = .error .attributeError := by
  exact ⟨by decide, by decide⟩

/-- C6 counterexample: a user id occurring twice among the member
references is appended to project.committers twice, because that append
is unguarded; only the person-side projects list is deduplicated. -/
theorem duplicate_member_counterexample :
    buildProject [("jdoe", pJdoe)] "foo" ["jdoe", "jdoe"] []
      = .ok ({ id := "foo", name := "Apache Foo", website := "https://foo.apache.org",
               committers := ["jdoe", "jdoe"] },
             [("jdoe", { pJdoe with projects := ["foo"] })])
    ∧ ¬ List.Nodup ["jdoe", "jdoe"] := by
  exact ⟨by decide, by decide⟩

/-- Store in which the slug "person" exists but its bucket is empty. -/
def cEmptyPersons : Collection := Collection.replace Collection.empty "person" []

/-- C2 counterexample: a type that exists in the store with zero records
produces the same "No such object type" error as an unknown type,
because the lookup tests the truthiness of the listed tuple and an empty
tuple is falsy. -/
theorem empty_bucket_counterexample :
    dictGet cEmptyPersons.cache "person" = some []
    ∧ lookupCore "example.org" cEmptyPersons "person" [] false = .noSuchType "person" := by
  exact ⟨by decide, by decide⟩

/-- C4 counterexample: get resolves "Person" and "ExtendedPerson" to the
"person" bucket, but Collection.list indexes the cache with the given
name verbatim, so listing "Person" or "ExtendedPerson" misses the bucket
that listing "person" finds. -/
theorem list_name_resolution_counterexample :
    Collection.get cJdoe "Person" [("id", .str "jdoe")] = .ok (some (.extendedPerson pJdoe))
    ∧ Collection.get cJdoe "ExtendedPerson" [("id", .str "jdoe")] = .ok (some (.extendedPerson pJdoe))
    ∧ Collection.list cJdoe "person" = [.extendedPerson pJdoe]
    ∧ Collection.list cJdoe "Person" = []
    ∧ Collection.list cJdoe "ExtendedPerson" = [] := by
  refine ⟨by decide, by decide, by decide, by decide, by decide⟩

theorem dictGet_dictOf_aux (rs : List Entity) (d : Bucket) (k : String) :
    dictGet (rs.foldl (fun acc o => dictInsert o.idOf o acc) d) k
      = (rs.reverse.find? fun r => decide (r.idOf = k)).or (dictGet d k) := by
  induction rs generalizing d with
  | nil => simp
  | cons r rest ih =>
    rw [List.foldl_cons, ih, List.reverse_cons, List.find?_append]
    by_cases hr : r.idOf = k
    · subst hr
      rw [dictGet_dictInsert_self, List.find?_cons_of_pos _ (by simp)]
      cases hA : rest.reverse.find? fun r2 => decide (r2.idOf = r.idOf) with
      | some a => simp
      | none => simp
    · rw [List.find?_cons_of_neg _ (by simp [hr]),
        dictGet_dictInsert_ne _ _ (fun h => hr h.symm)]
      cases hA : rest.reverse.find? fun r2 => decide (r2.idOf = k) with
      | some a => simp
      | none => simp

theorem dictGet_dictOf (rs : List Entity) (k : String) :
    dictGet (dictOf rs) k = rs.reverse.find? fun r => decide (r.idOf = k) := by
  rw [dictOf, dictGet_dictOf_aux]
  cases hA : rs.reverse.find? fun r => decide (r.idOf = k) with
  | some a => simp
  | none => simp [dictGet]

/-- C3: replace installs, as the entire new bucket, exactly the records
of the given list keyed by their id, a later record with the same id
overwriting an earlier one; nothing of the previous bucket contents
survives (the new bucket does not depend on the old store at all), and
the swap is a single transition of the store, so every state of the
one-operation trace shows either the complete old bucket or the complete
new bucket, never a mixture. -/
theorem replace_semantics (c : Collection) (t : String) (rs : List Entity) :
    (c.replace t rs).bucket (Collection.shorthand t) = dictOf rs
    ∧ (∀ k, dictGet ((c.replace t rs).bucket (Collection.shorthand t)) k
        = rs.reverse.find? fun r => decide (r.idOf = k))
    ∧ (∀ s ∈ statesOf c [.replace t rs],
        s.list (Collection.shorthand t) = c.list (Collection.shorthand t)
        ∨ s.list (Collection.shorthand t) = (c.replace t rs).list (Collection.shorthand t)) := by
  have hb : (c.replace t rs).bucket (Collection.shorthand t) = dictOf rs := by
    rw [Collection.bucket, Collection.replace, dictGet_dictInsert_self]
    rfl
  refine ⟨hb, fun k => by rw [hb, dictGet_dictOf], ?_⟩
  intro s hs
  simp only [statesOf, List.mem_cons, List.not_mem_nil, or_false] at hs
  rcases hs with rfl | rfl
  · exact Or.inl rfl
  · exact Or.inr rfl

/-- Witness: the one-operation trace that installs the sample person
really satisfies the atomicity statement at each of its two states. -/
theorem replace_semantics_witness :
    cJdoe.list "person" = Collection.empty.list "person"
    ∨ cJdoe.list "person"
      = (Collection.empty.replace "person" [.extendedPerson pJdoe]).list "person" := by
  have h := (replace_semantics Collection.empty "person" [.extendedPerson pJdoe]).2.2
    cJdoe (by decide)
  simpa using h

/-- A store state is well keyed when every bucket entry sits under the
id of the record it holds. -/
def WellKeyed (c : Collection) : Prop :=
  ∀ slug k e, dictGet (c.bucket slug) k = some e → e.idOf = k

theorem wellKeyed_empty : WellKeyed Collection.empty := by
  intro slug k e h
  simp [Collection.empty, Collection.bucket, dictGet] at h

theorem wellKeyed_replace (c : Collection) (t : String) (rs : List Entity)
    (h : WellKeyed c) : WellKeyed (c.replace t rs) := by
  intro slug k e he
  rw [Collection.bucket, Collection.replace] at he
  by_cases hslug : slug = Collection.shorthand t
  · subst hslug
    rw [dictGet_dictInsert_self] at he
    simp only [Option.getD_some] at he
    rw [dictGet_dictOf] at he
    have := List.find?_some he
    simpa using this
  · rw [dictGet_dictInsert_ne _ _ hslug] at he
    exact h slug k e he

theorem wellKeyed_add (c : Collection) (obj : Entity)
    (h : WellKeyed c) : WellKeyed (c.add obj) := by
  intro slug k e he
  rw [Collection.bucket, Collection.add] at he
  by_cases hslug : slug = Collection.shorthand obj.className
  · subst hslug
    rw [dictGet_dictInsert_self] at he
    simp only [Option.getD_some] at he
    by_cases hk : k = obj.idOf
    · subst hk
      rw [dictGet_dictInsert_self] at he
      cases he
      rfl
    · rw [dictGet_dictInsert_ne _ _ hk] at he
      exact h _ k e he
  · rw [dictGet_dictInsert_ne _ _ hslug] at he
    exact h slug k e he

theorem wellKeyed_applyOps (c : Collection) (ops : List StoreOp)
    (h : WellKeyed c) : WellKeyed (c.applyOps ops) := by
  induction ops generalizing c with
  | nil => exact h
  | cons op rest ih =>
    cases op with
    | replace t rs => exact ih _ (wellKeyed_replace c t rs h)
    | add e => exact ih _ (wellKeyed_add c e h)

/-- C10: in every store state reachable from the empty store by replace
and add operations, every bucket entry is keyed by the id of the record
stored under it. -/
theorem store_key_invariant (ops : List StoreOp) (slug k : String) (e : Entity)
    (h : dictGet ((Collection.empty.applyOps ops).bucket slug) k = some e) :
    e.idOf = k :=
  wellKeyed_applyOps Collection.empty ops wellKeyed_empty slug k e h

/-- Witness: the invariant applied to a concrete reachable state. -/
theorem store_key_invariant_witness : Entity.idOf (.extendedPerson pJdoe) = "jdoe" :=
  store_key_invariant [.replace "person" [.extendedPerson pJdoe]] "person" "jdoe"
    (.extendedPerson pJdoe) (by decide)

/-- C2 amended: the lookup returns the "No such object type" error
exactly when the listed bucket is empty, which covers both an unknown
type name and a known type whose bucket holds zero records (the two are
not distinguishable); whenever the bucket is nonempty and the query does
not request the schema, the result is a successful envelope, possibly
with zero matches after filtering. -/
theorem lookup_type_distinction (host : String) (c : Collection) (dt : String)
    (q : List (String × String)) (anon : Bool)
    (hs : "schema" ∉ q.map Prod.fst) :
    (c.list dt = [] → lookupCore host c dt q anon = .noSuchType dt)
    ∧ (¬ c.list dt = [] → ∃ rs n, lookupCore host c dt q anon = .envelope rs n) := by
  constructor
  · intro h
    simp [lookupCore, h]
  · intro h
    have hsch : (q.any fun kv => decide (kv.1 = "schema")) = false := by
      rw [List.any_eq_false]
      intro kv hkv
      simp only [decide_eq_true_eq]
      intro he
      exact hs (he ▸ List.mem_map_of_mem Prod.fst hkv)
    cases anon with
    | true =>
      refine ⟨((c.list dt).filter fun e =>
          q.all fun kv => decide (e.dumpGet host kv.1 = some (.str kv.2))).map
            Entity.downgradePublic,
        ((c.list dt).filter fun e =>
          q.all fun kv => decide (e.dumpGet host kv.1 = some (.str kv.2))).length, ?_⟩
      simp [lookupCore, h, hsch]
    | false =>
      refine ⟨(c.list dt).filter fun e =>
          q.all fun kv => decide (e.dumpGet host kv.1 = some (.str kv.2)),
        ((c.list dt).filter fun e =>
          q.all fun kv => decide (e.dumpGet host kv.1 = some (.str kv.2))).length, ?_⟩
      simp [lookupCore, h, hsch]

/-- Witness: a type absent from the store yields the error result. -/
theorem lookup_type_distinction_witness :
    lookupCore "example.org" Collection.empty "widget" [] false = .noSuchType "widget" :=
  (lookup_type_distinction "example.org" Collection.empty "widget" [] false (by decide)).1 rfl

/-- C4 amended: replace, add, get and get_all resolve the type name
through shorthand (case-insensitively and stripping the Extended
classifier), so any two spellings with the same slug address the same
bucket through those operations; Collection.list alone indexes the cache
with the given name verbatim, so only the canonical slug observes a
bucket through list. -/
theorem name_resolution_amended (c : Collection) (t1 t2 : String)
    (kw : List (String × PyVal)) (rs : List Entity) (r : Entity)
    (h : Collection.shorthand t1 = Collection.shorthand t2) :
    Collection.get c t1 kw = Collection.get c t2 kw
    ∧ Collection.get_all c t1 kw = Collection.get_all c t2 kw
    ∧ Collection.replace c t1 rs = Collection.replace c t2 rs
    ∧ (Collection.replace c t1 [r]).list (Collection.shorthand t1) = [r]
    ∧ (Collection.add c r).bucket (Collection.shorthand r.className)
        = dictInsert r.idOf r (c.bucket (Collection.shorthand r.className)) := by
  refine ⟨?_, ?_, ?_, ?_, ?_⟩
  · simp only [Collection.get, h]
  · simp only [Collection.get_all, h]
  · simp only [Collection.replace, h]
  · rw [Collection.list, Collection.replace, dictGet_dictInsert_self]
    rfl
  · simp only [Collection.bucket, Collection.add]
    rw [dictGet_dictInsert_self]
    rfl

/-- Witness: two spellings of the person type agree on get. -/
theorem name_resolution_amended_witness :
    Collection.get cJdoe "Person" [("id", .str "jdoe")]
      = Collection.get cJdoe "extendedperson" [("id", .str "jdoe")] :=
  (name_resolution_amended cJdoe "Person" "extendedperson" [("id", .str "jdoe")] []
    (.extendedPerson pJdoe) (by decide)).1

/-- Field names that exist only at the Extended tier of some type. -/
def extendedOnlyFields : List String :=
  ["account_created_ts", "alternate_emails", "moderators", "subscribers"]

/-- C1: at public/anonymous visibility the lookup returns exactly the
full-visibility results with every entity coerced to its lower-tier
projection; the projection has none of the Extended-only fields, and
every other serialized field keeps the value of the original record
verbatim (including the derived ref_url, whose slug strips the Extended
classifier). -/
theorem lookup_public_downgrades (host : String) (c : Collection) (dt : String)
    (q : List (String × String))
    (hs : "schema" ∉ q.map Prod.fst) :
    (∀ rs n, lookupCore host c dt q false = .envelope rs n →
      lookupCore host c dt q true = .envelope (rs.map Entity.downgradePublic) n)
    ∧ (∀ (e : Entity), ∀ f ∈ extendedOnlyFields,
        Entity.dumpGet host e.downgradePublic f = none)
    ∧ (∀ (e : Entity) (f : String), f ∉ extendedOnlyFields →
        Entity.dumpGet host e.downgradePublic f = Entity.dumpGet host e f) := by
  refine ⟨?_, ?_, ?_⟩
  · intro rs n hfull
    by_cases h : c.list dt = []
    · simp [lookupCore, h] at hfull
    · have hsch : (q.any fun kv => decide (kv.1 = "schema")) = false := by
        rw [List.any_eq_false]
        intro kv hkv
        simp only [decide_eq_true_eq]
        intro he
        exact hs (he ▸ List.mem_map_of_mem Prod.fst hkv)
      simp only [lookupCore, h, if_neg h, hsch, Bool.false_eq_true, if_false,
        LookupResult.envelope.injEq, if_true] at hfull ⊢
      obtain ⟨h1, h2⟩ := hfull
      subst h1
      subst h2
      exact ⟨rfl, rfl⟩
  · intro e f hf
    fin_cases hf <;> cases e <;> rfl
  · intro e f hf
    simp only [extendedOnlyFields, List.mem_cons, List.not_mem_nil, or_false, not_or] at hf
    obtain ⟨h1, h2, h3, h4⟩ := hf
    cases e with
    | extendedPerson p =>
      simp only [Entity.downgradePublic, Entity.dumpGet, Entity.getattr, Entity.className,
        Entity.idOf]
      by_cases hr : f = "ref_url"
      · subst hr
        rw [if_pos rfl, if_pos rfl,
          show Collection.shorthand "Person" = Collection.shorthand "ExtendedPerson" from
            by decide]
      · rw [if_neg hr, if_neg hr]
        simp only [ExtendedPerson.getattr]
        rw [if_neg h1, if_neg h2]
    | extendedMailingList m =>
      simp only [Entity.downgradePublic, Entity.dumpGet, Entity.getattr, Entity.className,
        Entity.idOf]
      by_cases hr : f = "ref_url"
      · subst hr
        rw [if_pos rfl, if_pos rfl,
          show Collection.shorthand "MailingList"
              = Collection.shorthand "ExtendedMailingList" from by decide]
      · rw [if_neg hr, if_neg hr]
        simp only [ExtendedMailingList.getattr]
        rw [if_neg h3, if_neg h4]
    | basePerson p => rfl
    | person p => rfl
    | baseMailingList m => rfl
    | mailingList m => rfl
    | gitRepository r => rfl
    | subversionRepository r => rfl
    | baseProject p => rfl
    | project p => rfl

/-- Witness: on a store holding one ExtendedPerson, the anonymous lookup
yields the downgraded record, and the downgraded record has no
account_created_ts field. -/
theorem lookup_public_downgrades_witness :
    lookupCore "example.org" cJdoe "person" [] true
      = .envelope [Entity.downgradePublic (.extendedPerson pJdoe)] 1
    ∧ Entity.dumpGet "example.org" (Entity.downgradePublic (.extendedPerson pJdoe))
        "account_created_ts" = none := by
  constructor
  · exact (lookup_public_downgrades "example.org" cJdoe "person" [] (by decide)).1
      [.extendedPerson pJdoe] 1 (by decide)
  · exact (lookup_public_downgrades "example.org" cJdoe "person" [] (by decide)).2.1
      (.extendedPerson pJdoe) "account_created_ts" (by decide)

theorem processMember_cases (pid : String) (st st1 : BuildState) (uid : String)
    (hok : processMember pid st uid = .ok st1) :
    (short_uid uid = "" ∧ st1 = st)
    ∨ ∃ person, ¬ short_uid uid = ""
        ∧ dictGet st.ps (short_uid uid) = some person
        ∧ st1.committers = st.committers ++ [person.id]
        ∧ st1.pmc_members = st.pmc_members
        ∧ st1.first_person = st.first_person
        ∧ ((pid ∈ person.projects ∧ st1.ps = st.ps)
            ∨ (pid ∉ person.projects
               ∧ st1.ps = dictInsert (short_uid uid)
                   { person with projects := person.projects ++ [pid] } st.ps)) := by
  simp only [processMember] at hok
  split at hok
  next ha =>
    exact Or.inl ⟨ha, (Except.ok.inj hok).symm⟩
  next ha =>
    split at hok
    next hg => simp at hok
    next person hg =>
      refine Or.inr ⟨person, ha, hg, ?_⟩
      split at hok
      next hp =>
        obtain rfl := (Except.ok.inj hok).symm
        exact ⟨rfl, rfl, rfl, Or.inl ⟨hp, rfl⟩⟩
      next hp =>
        obtain rfl := (Except.ok.inj hok).symm
        exact ⟨rfl, rfl, rfl, Or.inr ⟨hp, rfl⟩⟩

theorem processOwner_cases (pid : String) (st st1 : BuildState) (uid : String)
    (hok : processOwner pid st uid = .ok st1) :
    (short_uid uid = "" ∧ st1 = st)
    ∨ ∃ person, ¬ short_uid uid = ""
        ∧ dictGet st.ps (short_uid uid) = some person
        ∧ st1.committers = st.committers
        ∧ st1.pmc_members = st.pmc_members ++ [person.id]
        ∧ st1.first_person
            = (match st.first_person with | none => some person.id | some x => some x)
        ∧ ((pid ∈ person.projects ∧ st1.ps = st.ps)
            ∨ (pid ∉ person.projects
               ∧ st1.ps = dictInsert (short_uid uid)
                   { person with projects := person.projects ++ [pid] } st.ps)) := by
  simp only [processOwner] at hok
  split at hok
  next ha =>
    exact Or.inl ⟨ha, (Except.ok.inj hok).symm⟩
  next ha =>
    split at hok
    next hg => simp at hok
    next person hg =>
      refine Or.inr ⟨person, ha, hg, ?_⟩
      split at hok
      next hp =>
        obtain rfl := (Except.ok.inj hok).symm
        exact ⟨rfl, rfl, rfl, Or.inl ⟨hp, rfl⟩⟩
      next hp =>
        obtain rfl := (Except.ok.inj hok).symm
        exact ⟨rfl, rfl, rfl, Or.inr ⟨hp, rfl⟩⟩

theorem processMembers_inv {P : BuildState → Prop} (pid : String)
    (hstep : ∀ st uid st1, processMember pid st uid = .ok st1 → P st → P st1)
    (st st1 : BuildState) (uids : List String)
    (hok : processMembers pid st uids = .ok st1) (h0 : P st) : P st1 := by
  induction uids generalizing st with
  | nil =>
    simp only [processMembers] at hok
    obtain rfl := (Except.ok.inj hok).symm
    exact h0
  | cons u rest ih =>
    simp only [processMembers] at hok
    cases h1 : processMember pid st u with
    | error e => rw [h1] at hok; simp at hok
    | ok st2 =>
      rw [h1] at hok
      exact ih st2 hok (hstep _ _ _ h1 h0)

theorem processOwners_inv {P : BuildState → Prop} (pid : String)
    (hstep : ∀ st uid st1, processOwner pid st uid = .ok st1 → P st → P st1)
    (st st1 : BuildState) (uids : List String)
    (hok : processOwners pid st uids = .ok st1) (h0 : P st) : P st1 := by
  induction uids generalizing st with
  | nil =>
    simp only [processOwners] at hok
    obtain rfl := (Except.ok.inj hok).symm
    exact h0
  | cons u rest ih =>
    simp only [processOwners] at hok
    cases h1 : processOwner pid st u with
    | error e => rw [h1] at hok; simp at hok
    | ok st2 =>
      rw [h1] at hok
      exact ih st2 hok (hstep _ _ _ h1 h0)

theorem buildProject_inv (ps : PersonStore) (cn : String) (ms os : List String)
    (proj : Project) (ps1 : PersonStore)
    (hok : buildProject ps cn ms os = .ok (proj, ps1)) :
    ∃ st1 st2, processMembers cn ⟨ps, [], [], none⟩ ms = .ok st1
      ∧ processOwners cn st1 os = .ok st2
      ∧ proj = { id := cn, name := "Apache " ++ pyCapitalize cn,
                 website := "https://" ++ cn ++ ".apache.org",
                 chair := st2.first_person, committers := st2.committers,
                 pmc_members := st2.pmc_members }
      ∧ ps1 = st2.ps := by
  simp only [buildProject] at hok
  split at hok
  next e h1 => simp at hok
  next st1 h1 =>
    split at hok
    next e h2 => simp at hok
    next st2 h2 =>
      have hpair := Except.ok.inj hok
      exact ⟨st1, st2, h1, h2, (congrArg Prod.fst hpair).symm,
        (congrArg Prod.snd hpair).symm⟩

theorem nodup_append_singleton {α : Type} {l : List α} {a : α}
    (h : l.Nodup) (ha : a ∉ l) : (l ++ [a]).Nodup := by
  induction l with
  | nil => simp
  | cons x xs ih =>
    simp only [List.nodup_cons] at h
    simp only [List.cons_append, List.nodup_cons]
    constructor
    · simp only [List.mem_append, List.mem_singleton]
      rintro (hx | rfl)
      · exact h.1 hx
      · exact ha (List.mem_cons_self _ _)
    · exact ih h.2 fun hm => ha (List.mem_cons_of_mem _ hm)

/-- Invariant of the linking loops: the person store stays keyed by id,
and every id recorded so far in the committer or pmc lists denotes a
person whose projects list already holds the project. -/
def MutualInv (cn : String) (st : BuildState) : Prop :=
  (∀ kp ∈ st.ps, (kp.2).id = kp.1)
  ∧ ∀ u ∈ st.committers ++ st.pmc_members,
      ∃ p, dictGet st.ps u = some p ∧ cn ∈ p.projects

theorem mutualInv_processMember (cn : String) (st st1 : BuildState) (uid : String)
    (hok : processMember cn st uid = .ok st1)
    (h : MutualInv cn st) : MutualInv cn st1 := by
  rcases processMember_cases cn st st1 uid hok with ⟨_, rfl⟩ |
    ⟨person, ha, hg, hc, hpm, hfp, hps⟩
  · exact h
  · obtain ⟨hwk, hmut⟩ := h
    have hpid : person.id = short_uid uid := hwk _ (dictGet_mem hg)
    rcases hps with ⟨hin, hpseq⟩ | ⟨hnin, hpseq⟩
    · refine ⟨by rw [hpseq]; exact hwk, ?_⟩
      intro u hu
      rw [hc, hpm] at hu
      rw [hpseq]
      rcases List.mem_append.mp hu with hu1 | hu2
      · rcases List.mem_append.mp hu1 with hu3 | hu4
        · exact hmut u (List.mem_append.mpr (Or.inl hu3))
        · obtain rfl := List.mem_singleton.mp hu4
          rw [hpid]
          exact ⟨person, hg, hin⟩
      · exact hmut u (List.mem_append.mpr (Or.inr hu2))
    · constructor
      · intro kp hkp
        rw [hpseq] at hkp
        rcases mem_dictInsert hkp with rfl | hkp2
        · exact hpid
        · exact hwk kp hkp2
      · intro u hu
        rw [hc, hpm] at hu
        rw [hpseq]
        by_cases hu_asf : u = short_uid uid
        · subst hu_asf
          exact ⟨_, dictGet_dictInsert_self _ _ _, by simp⟩
        · rw [dictGet_dictInsert_ne _ _ hu_asf]
          rcases List.mem_append.mp hu with hu1 | hu2
          · rcases List.mem_append.mp hu1 with hu3 | hu4
            · exact hmut u (List.mem_append.mpr (Or.inl hu3))
            · exact absurd ((List.mem_singleton.mp hu4).trans hpid) hu_asf
          · exact hmut u (List.mem_append.mpr (Or.inr hu2))

theorem mutualInv_processOwner (cn : String) (st st1 : BuildState) (uid : String)
    (hok : processOwner cn st uid = .ok st1)
    (h : MutualInv cn st) : MutualInv cn st1 := by
  rcases processOwner_cases cn st st1 uid hok with ⟨_, rfl⟩ |
    ⟨person, ha, hg, hc, hpm, hfp, hps⟩
  · exact h
  · obtain ⟨hwk, hmut⟩ := h
    have hpid : person.id = short_uid uid := hwk _ (dictGet_mem hg)
    rcases hps with ⟨hin, hpseq⟩ | ⟨hnin, hpseq⟩
    · refine ⟨by rw [hpseq]; exact hwk, ?_⟩
      intro u hu
      rw [hc, hpm] at hu
      rw [hpseq]
      rcases List.mem_append.mp hu with hu1 | hu2
      · exact hmut u (List.mem_append.mpr (Or.inl hu1))
      · rcases List.mem_append.mp hu2 with hu3 | hu4
        · exact hmut u (List.mem_append.mpr (Or.inr hu3))
        · obtain rfl := List.mem_singleton.mp hu4
          rw [hpid]
          exact ⟨person, hg, hin⟩
    · constructor
      · intro kp hkp
        rw [hpseq] at hkp
        rcases mem_dictInsert hkp with rfl | hkp2
        · exact hpid
        · exact hwk kp hkp2
      · intro u hu
        rw [hc, hpm] at hu
        rw [hpseq]
        by_cases hu_asf : u = short_uid uid
        · subst hu_asf
          exact ⟨_, dictGet_dictInsert_self _ _ _, by simp⟩
        · rw [dictGet_dictInsert_ne _ _ hu_asf]
          rcases List.mem_append.mp hu with hu1 | hu2
          · exact hmut u (List.mem_append.mpr (Or.inl hu1))
          · rcases List.mem_append.mp hu2 with hu3 | hu4
            · exact hmut u (List.mem_append.mpr (Or.inr hu3))
            · exact absurd ((List.mem_singleton.mp hu4).trans hpid) hu_asf

/-- Invariant: every person in the store has a duplicate-free projects
list. -/
def NodupInv (st : BuildState) : Prop := ∀ kp ∈ st.ps, (kp.2).projects.Nodup

theorem nodupInv_processMember (cn : String) (st st1 : BuildState) (uid : String)
    (hok : processMember cn st uid = .ok st1)
    (h : NodupInv st) : NodupInv st1 := by
  rcases processMember_cases cn st st1 uid hok with ⟨_, rfl⟩ |
    ⟨person, ha, hg, hc, hpm, hfp, hps⟩
  · exact h
  · rcases hps with ⟨hin, hpseq⟩ | ⟨hnin, hpseq⟩
    · intro kp hkp
      rw [hpseq] at hkp
      exact h kp hkp
    · intro kp hkp
      rw [hpseq] at hkp
      rcases mem_dictInsert hkp with rfl | hkp2
      · exact nodup_append_singleton (h _ (dictGet_mem hg)) hnin
      · exact h kp hkp2

theorem nodupInv_processOwner (cn : String) (st st1 : BuildState) (uid : String)
    (hok : processOwner cn st uid = .ok st1)
    (h : NodupInv st) : NodupInv st1 := by
  rcases processOwner_cases cn st st1 uid hok with ⟨_, rfl⟩ |
    ⟨person, ha, hg, hc, hpm, hfp, hps⟩
  · exact h
  · rcases hps with ⟨hin, hpseq⟩ | ⟨hnin, hpseq⟩
    · intro kp hkp
      rw [hpseq] at hkp
      exact h kp hkp
    · intro kp hkp
      rw [hpseq] at hkp
      rcases mem_dictInsert hkp with rfl | hkp2
      · exact nodup_append_singleton (h _ (dictGet_mem hg)) hnin
      · exact h kp hkp2

/-- C6 amended: the linking is mutual, and the person-side projects
lists never gain duplicate entries (so re-running the linking over the
same input keeps them duplicate-free); but the project-side committers
and pmc_members appends are unguarded, so a repeated user id in the
member or owner references does produce duplicate entries there. -/
theorem crosslink_mutual_and_nodup (ps : PersonStore) (cn : String)
    (ms os : List String) (proj : Project) (ps1 : PersonStore)
    (hwk : ∀ kp ∈ ps, (kp.2).id = kp.1)
    (hok : buildProject ps cn ms os = .ok (proj, ps1)) :
    (∀ u ∈ proj.committers ++ proj.pmc_members,
       ∃ p, dictGet ps1 u = some p ∧ cn ∈ p.projects)
    ∧ ((∀ kp ∈ ps, (kp.2).projects.Nodup) → ∀ kp ∈ ps1, (kp.2).projects.Nodup) := by
  obtain ⟨st1, st2, h1, h2, hproj, hps1⟩ := buildProject_inv ps cn ms os proj ps1 hok
  have hm1 : MutualInv cn st1 :=
    processMembers_inv cn (fun st uid st' hs hP => mutualInv_processMember cn st st' uid hs hP)
      _ st1 ms h1 ⟨hwk, by intro u hu; simp at hu⟩
  have hm2 : MutualInv cn st2 :=
    processOwners_inv cn (fun st uid st' hs hP => mutualInv_processOwner cn st st' uid hs hP)
      st1 st2 os h2 hm1
  constructor
  · intro u hu
    rw [hproj] at hu
    rw [hps1]
    exact hm2.2 u hu
  · intro hnod
    have hn1 : NodupInv st1 :=
      processMembers_inv cn (fun st uid st' hs hP => nodupInv_processMember cn st st' uid hs hP)
        _ st1 ms h1 hnod
    have hn2 : NodupInv st2 :=
      processOwners_inv cn (fun st uid st' hs hP => nodupInv_processOwner cn st st' uid hs hP)
        st1 st2 os h2 hn1
    intro kp hkp
    rw [hps1] at hkp
    exact hn2 kp hkp

/-- Person store and project produced by linking one member "jdoe". -/
def psW : PersonStore := [("jdoe", { pJdoe with projects := ["foo"] })]

/-- Project produced by linking one member "jdoe". -/
def projW : Project :=
  { id := "foo", name := "Apache Foo", website := "https://foo.apache.org",
    committers := ["jdoe"] }

/-- Witness: on a concrete run the committer "jdoe" really carries the
back reference to the project it was linked to. -/
theorem crosslink_mutual_and_nodup_witness :
    "foo" ∈ ({ pJdoe with projects := ["foo"] } : ExtendedPerson).projects := by
  obtain ⟨hmut, _⟩ := crosslink_mutual_and_nodup [("jdoe", pJdoe)] "foo" ["jdoe"] []
    projW psW (by decide) (by decide)
  obtain ⟨p, hp, hm⟩ := hmut "jdoe" (by decide)
  have hval : dictGet psW "jdoe" = some { pJdoe with projects := ["foo"] } := by decide
  rw [hval] at hp
  rwa [← Option.some.inj hp] at hm

theorem firstPerson_mono_processOwner (pid c : String) (st st1 : BuildState)
    (uid : String) (hok : processOwner pid st uid = .ok st1)
    (h : st.first_person = some c) : st1.first_person = some c := by
  rcases processOwner_cases pid st st1 uid hok with ⟨_, rfl⟩ |
    ⟨person, _, _, _, _, hfp1, _⟩
  · exact h
  · rw [hfp1, h]

theorem processOwners_first (pid : String) (st st2 : BuildState) (u : String)
    (rest : List String)
    (hok : processOwners pid st (u :: rest) = .ok st2)
    (hfp : st.first_person = none)
    (hgood : ¬ short_uid u = "") :
    ∃ person, dictGet st.ps (short_uid u) = some person
      ∧ st2.first_person = some person.id := by
  simp only [processOwners] at hok
  cases h1 : processOwner pid st u with
  | error e => rw [h1] at hok; simp at hok
  | ok st1 =>
    rw [h1] at hok
    rcases processOwner_cases pid st st1 u h1 with ⟨ha, _⟩ |
      ⟨person, _, hg, _, _, hfp1, _⟩
    · exact absurd ha hgood
    · refine ⟨person, hg, ?_⟩
      rw [hfp] at hfp1
      exact processOwners_inv pid
        (fun s uid2 s1 hs hP => firstPerson_mono_processOwner pid person.id s s1 uid2 hs hP)
        st1 st2 rest hok hfp1

theorem chairPmc_processOwner (pid : String) (st st1 : BuildState) (uid : String)
    (hok : processOwner pid st uid = .ok st1)
    (h : ∀ c, st.first_person = some c → c ∈ st.pmc_members) :
    ∀ c, st1.first_person = some c → c ∈ st1.pmc_members := by
  rcases processOwner_cases pid st st1 uid hok with ⟨_, rfl⟩ |
    ⟨person, _, _, _, hpm, hfp1, _⟩
  · exact h
  · intro c hc
    rw [hpm]
    rw [hfp1] at hc
    cases hst : st.first_person with
    | none =>
      rw [hst] at hc
      obtain rfl := Option.some.inj hc
      exact List.mem_append.mpr (Or.inr (List.mem_singleton.mpr rfl))
    | some x =>
      rw [hst] at hc
      obtain rfl := Option.some.inj hc
      exact List.mem_append.mpr (Or.inl (h x hst))

/-- Invariant: the linking loops never change which key resolves to a
person nor the id of the person it resolves to (only the projects list
of a person is updated in place). -/
def IdsInv (ps0 : PersonStore) (st : BuildState) : Prop :=
  ∀ x, (dictGet st.ps x).map (fun p => p.id) = (dictGet ps0 x).map (fun p => p.id)

theorem idsInv_processMember (ps0 : PersonStore) (cn : String) (st st1 : BuildState)
    (uid : String) (hok : processMember cn st uid = .ok st1)
    (h : IdsInv ps0 st) : IdsInv ps0 st1 := by
  rcases processMember_cases cn st st1 uid hok with ⟨_, rfl⟩ |
    ⟨person, _, hg, _, _, _, hps⟩
  · exact h
  · rcases hps with ⟨_, hpseq⟩ | ⟨_, hpseq⟩
    · intro x
      rw [hpseq]
      exact h x
    · intro x
      rw [hpseq]
      by_cases hx : x = short_uid uid
      · subst hx
        rw [dictGet_dictInsert_self]
        have h2 := h (short_uid uid)
        rw [hg] at h2
        simpa using h2
      · rw [dictGet_dictInsert_ne _ _ hx]
        exact h x

theorem fpPmc_processMember (cn : String) (st st1 : BuildState) (uid : String)
    (hok : processMember cn st uid = .ok st1)
    (h : st.first_person = none ∧ st.pmc_members = []) :
    st1.first_person = none ∧ st1.pmc_members = [] := by
  rcases processMember_cases cn st st1 uid hok with ⟨_, rfl⟩ |
    ⟨_, _, _, _, hpm, hfp, _⟩
  · exact h
  · exact ⟨hfp.trans h.1, hpm.trans h.2⟩

/-- C7: for every project successfully built by the collector, the chair
is the person resolved from the first owner reference in source order
(none when there are no owner references), and a present chair is always
an element of the pmc_members of the same project. -/
theorem chair_first_owner (ps : PersonStore) (cn : String) (ms os : List String)
    (proj : Project) (ps1 : PersonStore)
    (hok : buildProject ps cn ms os = .ok (proj, ps1))
    (hgood : ∀ u ∈ os, ¬ short_uid u = "") :
    (os = [] → proj.chair = none)
    ∧ (∀ u rest, os = u :: rest →
        ∃ p, dictGet ps (short_uid u) = some p ∧ proj.chair = some p.id)
    ∧ (∀ cid, proj.chair = some cid → cid ∈ proj.pmc_members) := by
  obtain ⟨st1, st2, h1, h2, hproj, hps1⟩ := buildProject_inv ps cn ms os proj ps1 hok
  have hfp1 : st1.first_person = none ∧ st1.pmc_members = [] :=
    processMembers_inv cn (fun s u s1 hs hP => fpPmc_processMember cn s s1 u hs hP)
      _ st1 ms h1 ⟨rfl, rfl⟩
  have hids : IdsInv ps st1 :=
    processMembers_inv cn (fun s u s1 hs hP => idsInv_processMember ps cn s s1 u hs hP)
      _ st1 ms h1 (fun x => rfl)
  refine ⟨?_, ?_, ?_⟩
  · intro hos
    subst hos
    simp only [processOwners] at h2
    obtain rfl := (Except.ok.inj h2).symm
    rw [hproj]
    exact hfp1.1
  · intro u rest hos
    subst hos
    obtain ⟨person, hgp, hfp2⟩ := processOwners_first cn st1 st2 u rest h2 hfp1.1
      (hgood u (List.mem_cons_self _ _))
    have h3 := hids (short_uid u)
    rw [hgp] at h3
    cases hq : dictGet ps (short_uid u) with
    | none =>
      rw [hq] at h3
      simp at h3
    | some p0 =>
      rw [hq] at h3
      simp only [Option.map_some'] at h3
      refine ⟨p0, rfl, ?_⟩
      rw [hproj]
      show st2.first_person = some p0.id
      rw [hfp2]
      exact h3
  · intro cid hc
    have hpmc : ∀ c, st2.first_person = some c → c ∈ st2.pmc_members :=
      processOwners_inv cn (fun s u s1 hs hP => chairPmc_processOwner cn s s1 u hs hP)
        st1 st2 os h2 (by intro c hcc; rw [hfp1.1] at hcc; cases hcc)
    rw [hproj] at hc ⊢
    exact hpmc cid hc

/-- Three-person store for the chair selection witness. -/
def psChairW : PersonStore :=
  [("a", { id := "a", name := "A", primary_email := "a@apache.org" }),
   ("b", { id := "b", name := "B", primary_email := "b@apache.org" }),
   ("c", { id := "c", name := "C", primary_email := "c@apache.org" })]

/-- Person store after linking owners ["b", "a", "c"] of project foo. -/
def psChairW1 : PersonStore :=
  [("a", { id := "a", name := "A", primary_email := "a@apache.org", projects := ["foo"] }),
   ("b", { id := "b", name := "B", primary_email := "b@apache.org", projects := ["foo"] }),
   ("c", { id := "c", name := "C", primary_email := "c@apache.org", projects := ["foo"] })]

/-- Project built from owner references ["b", "a", "c"]. -/
def projChairW : Project :=
  { id := "foo", name := "Apache Foo", website := "https://foo.apache.org",
    chair := some "b", pmc_members := ["b", "a", "c"] }

/-- Witness: with owner references ["b", "a", "c"] the chair is "b", the
first one seen, and the chair is a pmc member. -/
theorem chair_first_owner_witness :
    projChairW.chair = some "b" ∧ "b" ∈ projChairW.pmc_members := by
  have h := chair_first_owner psChairW "foo" [] ["b", "a", "c"] projChairW psChairW1
    (by decide) (by decide)
  exact ⟨by decide, h.2.2 "b" (by decide)⟩
